import Mathlib

/-!
Verification of the MCP todo client/server repository.

The development shallow-embeds the Python sources:
* `my-first-mcp-server/mcp-client.py` — `SimpleMCPClient`: message-id counter,
  JSON-line framing (`json.dumps(message) + "\n"` / `json.loads(line.strip())`),
  and response handling (`if "error" in response: raise`, `return
  response.get("result", {})`).
* `my-first-mcp-server/mcp-server.py` — the global `todos` dict and the handlers
  `add_todo`, `complete_todo`, `delete_todo`, `list_todos`, `get_todo`, `greet`.
* `basic-mcp/server.py` — the `debug_error` prompt built from Python set literals.

Python strings are modelled as `List Char` (a sequence of Unicode scalar
values); Python dicts as insertion-ordered association lists (`dictGet`,
`dictSet`, `dictDel` below reproduce lookup, in-place update/append, and `del`);
the standard-library `json` module is modelled by an executable serializer
`jsonDumps` and recursive-descent parser `jsonLoads` over the value type
`JsonV`, reproducing `json.dumps`' default settings (`ensure_ascii=True`,
separators `", "` and `": "`) and `json.loads`' grammar on the fragment the
repository exchanges (no floats; lone surrogates, which Lean's `Char` cannot
denote, are rejected).
-/

namespace Mcp

/-! ## Python dict operations (insertion-ordered association lists) -/

/-- `d.get(k)` / `d[k]`: first-match lookup.  The dicts in the sources have
pairwise-distinct keys, for which first match and Python's semantics agree. -/
def dictGet {V : Type} : List (List Char × V) → List Char → Option V
  | [], _ => none
  | (k', v) :: rest, k => if k' = k then some v else dictGet rest k

/-- `d[k] = v`: update in place if the key is present (keeping its position),
otherwise append — Python dicts preserve insertion order. -/
def dictSet {V : Type} : List (List Char × V) → List Char → V → List (List Char × V)
  | [], k, v => [(k, v)]
  | (k', v') :: rest, k, v =>
    if k' = k then (k, v) :: rest else (k', v') :: dictSet rest k v

/-- `del d[k]`: remove the entry for the key (first occurrence). -/
def dictDel {V : Type} : List (List Char × V) → List Char → List (List Char × V)
  | [], _ => []
  | (k', v') :: rest, k => if k' = k then rest else (k', v') :: dictDel rest k

/-! ## Decimal rendering of integers (Python `repr` of `int`, used by
`json.dumps`) -/

/-- The ASCII digit for `n < 10`. -/
def digitChar (n : Nat) : Char := Char.ofNat (48 + n)

/-- Decimal digits of a natural number, most significant first
(`repr` of a non-negative Python `int`). -/
def natDigits (n : Nat) : List Char :=
  if _h : n < 10 then [digitChar n]
  else natDigits (n / 10) ++ [digitChar (n % 10)]
  decreasing_by exact Nat.div_lt_self (by omega) (by omega)

/-- Decimal rendering of a Python `int`, with `-` for negatives. -/
def intChars (i : Int) : List Char :=
  if i < 0 then '-' :: natDigits i.natAbs else natDigits i.toNat

/-! ## JSON values -/

/-- The JSON value fragment the repository exchanges: Python `None`, `bool`,
`int`, `str`, `list`, `dict` as seen by the `json` module.  Object fields are
kept in insertion order; the dicts the sources build have distinct keys. -/
inductive JsonV : Type
  | null : JsonV
  | bool (b : Bool) : JsonV
  | num (n : Int) : JsonV
  | str (s : List Char) : JsonV
  | arr (elems : List JsonV) : JsonV
  | obj (fields : List (List Char × JsonV)) : JsonV

/-! ## `json.dumps` (default settings: `ensure_ascii=True`,
item separator `", "`, key separator `": "`) -/

/-- Lowercase hex digit, as Python's `'%04x'` formatting uses. -/
def hexDigit (n : Nat) : Char :=
  if n < 10 then Char.ofNat (48 + n) else Char.ofNat (87 + n)

/-- Four lowercase hex digits of `n < 0x10000` (`'\uXXXX'` body). -/
def hex4 (n : Nat) : List Char :=
  [hexDigit (n / 4096 % 16), hexDigit (n / 256 % 16), hexDigit (n / 16 % 16),
   hexDigit (n % 16)]

/-- `json.encoder.py_encode_basestring_ascii` per character: the two-character
escapes for `"` `\` and the named control characters, `\uXXXX` for other
control characters and everything outside `0x20`–`0x7e`, with a surrogate pair
for code points above `0xffff`. -/
def escapeChar (c : Char) : List Char :=
  let n := c.toNat
  if c = '"' then ['\\', '"']
  else if c = '\\' then ['\\', '\\']
  else if n = 8 then ['\\', 'b']
  else if n = 9 then ['\\', 't']
  else if n = 10 then ['\\', 'n']
  else if n = 12 then ['\\', 'f']
  else if n = 13 then ['\\', 'r']
  else if n < 32 then '\\' :: 'u' :: hex4 n
  else if n < 127 then [c]
  else if n < 65536 then '\\' :: 'u' :: hex4 n
  else
    let m := n - 65536
    ('\\' :: 'u' :: hex4 (55296 + m / 1024)) ++ ('\\' :: 'u' :: hex4 (56320 + m % 1024))

/-- A JSON string literal: quote, escaped characters, quote. -/
def encStr (s : List Char) : List Char :=
  '"' :: s.flatMap escapeChar ++ ['"']

mutual

/-- `json.dumps` of one value (without the trailing newline the client adds). -/
def dumpVal : JsonV → List Char
  | .null => 'n' :: ['u', 'l', 'l']
  | .bool true => 't' :: ['r', 'u', 'e']
  | .bool false => 'f' :: ['a', 'l', 's', 'e']
  | .num i => intChars i
  | .str s => encStr s
  | .arr es => '[' :: dumpElems es ++ [']']
  | .obj fs => '\x7b' :: dumpFields fs ++ ['\x7d']

/-- Array elements joined by the default item separator `", "`. -/
def dumpElems : List JsonV → List Char
  | [] => []
  | [e] => dumpVal e
  | e :: es => dumpVal e ++ ',' :: ' ' :: dumpElems es

/-- Object members `key: value` joined by `", "` (key separator `": "`). -/
def dumpFields : List (List Char × JsonV) → List Char
  | [] => []
  | [(k, v)] => encStr k ++ ':' :: ' ' :: dumpVal v
  | (k, v) :: fs => (encStr k ++ ':' :: ' ' :: dumpVal v) ++ ',' :: ' ' :: dumpFields fs

end

/-! ## `json.loads`

A recursive-descent parser over `List Char`, following CPython's `json.scanner`
and `json.decoder` on the fragment the repository exchanges: objects, arrays,
strings (with all standard escapes, `\uXXXX` and surrogate pairs), integers,
`true`/`false`/`null`.  Deviations, both on inputs the repository's encoder
never produces: floats (`.`/`e`/`E` after the integer part) are rejected
instead of parsed, and a `\uXXXX` escape denoting a lone surrogate is rejected
because Lean's `Char` has no lone-surrogate inhabitant. -/

/-- JSON whitespace (`json.decoder.WHITESPACE_STR`). -/
def isJsonWs (c : Char) : Bool :=
  c = ' ' ∨ c = '\t' ∨ c = '\n' ∨ c = '\r'

/-- Skip leading JSON whitespace. -/
def skipWs : List Char → List Char
  | [] => []
  | c :: cs => if isJsonWs c then skipWs cs else c :: cs

/-- Value of one hex digit, either case. -/
def hexVal (c : Char) : Option Nat :=
  let n := c.toNat
  if 48 ≤ n ∧ n ≤ 57 then some (n - 48)
  else if 97 ≤ n ∧ n ≤ 102 then some (n - 87)
  else if 65 ≤ n ∧ n ≤ 70 then some (n - 55)
  else none

/-- ASCII decimal digit test. -/
def isDigitChar (c : Char) : Bool := 48 ≤ c.toNat ∧ c.toNat ≤ 57

/-- Decode the body of a `\uXXXX` escape (four hex digits after `\u`),
combining a high surrogate with a following `\uXXXX` low surrogate as
`py_scanstring` does.  A lone surrogate is rejected (Lean's `Char` has no such
inhabitant; CPython would keep it, but the encoder never emits one). -/
def parseUEsc : List Char → Option (Char × List Char)
  | a :: b :: c1 :: d :: rest1 =>
    match hexVal a, hexVal b, hexVal c1, hexVal d with
    | some va, some vb, some vc, some vd =>
      let n := va * 4096 + vb * 256 + vc * 16 + vd
      if 55296 ≤ n ∧ n < 56320 then
        match rest1 with
        | b1 :: u1 :: a2 :: b2 :: c2 :: d2 :: rest2 =>
          if b1 = '\\' ∧ u1 = 'u' then
            match hexVal a2, hexVal b2, hexVal c2, hexVal d2 with
            | some wa, some wb, some wc, some wd =>
              let m := wa * 4096 + wb * 256 + wc * 16 + wd
              if 56320 ≤ m ∧ m < 57344 then
                some (Char.ofNat (65536 + (n - 55296) * 1024 + (m - 56320)), rest2)
              else none
            | _, _, _, _ => none
          else none
        | _ => none
      else if 56320 ≤ n ∧ n < 57344 then none
      else some (Char.ofNat n, rest1)
    | _, _, _, _ => none
  | _ => none

/-- The two-character escapes `py_scanstring` accepts (`json.decoder.BACKSLASH`
minus `u`, which `parseUEsc` handles). -/
def escCharOf (e : Char) : Option Char :=
  if e = '"' then some '"'
  else if e = '\\' then some '\\'
  else if e = '/' then some '/'
  else if e = 'b' then some '\x08'
  else if e = 'f' then some '\x0c'
  else if e = 'n' then some '\n'
  else if e = 'r' then some '\x0d'
  else if e = 't' then some '\t'
  else none

/-- A successful `\uXXXX` decode consumes at least the four hex digits. -/
theorem parseUEsc_length {s : List Char} {ch : Char} {rest : List Char}
    (h : parseUEsc s = some (ch, rest)) : rest.length < s.length := by
  match s with
  | [] => simp [parseUEsc] at h
  | [a] | [a, b] | [a, b, c1] => simp [parseUEsc] at h
  | a :: b :: c1 :: d :: rest1 =>
    simp only [parseUEsc] at h
    split at h
    · split at h
      · split at h
        · split at h
          · split at h
            · split at h
              · rename_i rest2 _ _ _ _ _ _ _
                obtain ⟨rfl, rfl⟩ := by simpa using h
                simp
                omega
              · exact absurd h (by simp)
            · exact absurd h (by simp)
          · exact absurd h (by simp)
        · exact absurd h (by simp)
      · split at h
        · exact absurd h (by simp)
        · obtain ⟨rfl, rfl⟩ := by simpa using h
          simp
          omega
    · exact absurd h (by simp)

/-- Body of a string literal after the opening quote (`json.decoder
py_scanstring`): literal characters up to the closing quote, two-character
escapes, `\uXXXX` escapes; raw control characters are rejected
(`strict=True`). -/
def parseStringBody (acc : List Char) : List Char → Option (List Char × List Char)
  | [] => none
  | c :: cs =>
    if c = '"' then some (acc.reverse, cs)
    else if c = '\\' then
      match cs with
      | [] => none
      | e :: rest =>
        if e = 'u' then
          match h : parseUEsc rest with
          | some (ch, rest1) => parseStringBody (ch :: acc) rest1
          | none => none
        else
          match escCharOf e with
          | some ch => parseStringBody (ch :: acc) rest
          | none => none
    else if c.toNat < 32 then none
    else parseStringBody (c :: acc) cs
  termination_by s => s.length
  decreasing_by
  · have := parseUEsc_length h
    simp
    omega
  · simp
    omega
  · simp

/-- Consume a run of decimal digits, accumulating their value. -/
def parseDigits (acc : Nat) : List Char → Nat × List Char
  | [] => (acc, [])
  | c :: cs =>
    if isDigitChar c then parseDigits (acc * 10 + (c.toNat - 48)) cs
    else (acc, c :: cs)

/-- The unsigned part of a JSON number per `json.scanner`'s `NUMBER_RE`,
restricted to the integers the repository exchanges: `0` or a nonzero-led
digit run; a leading zero followed by a digit is an error, and a following
`.`/`e`/`E` (a float) is out of the model and rejected. -/
def parseUInt : List Char → Option (Nat × List Char)
  | [] => none
  | d :: ds =>
    if hd : isDigitChar d then
      if d = '0' ∧ (ds.head?.elim false isDigitChar) then none
      else
        match parseDigits (d.toNat - 48) ds with
        | (n, rest) =>
          if rest.head?.elim false (fun e => e = '.' ∨ e = 'e' ∨ e = 'E') then none
          else some (n, rest)
    else none

/-- A JSON number: optional `-`, then the unsigned integer part. -/
def parseNumber (s : List Char) : Option (JsonV × List Char) :=
  match s with
  | [] => none
  | c :: cs =>
    if c = '-' then
      match parseUInt cs with
      | some (n, rest) => some (.num (-(n : Int)), rest)
      | none => none
    else
      match parseUInt (c :: cs) with
      | some (n, rest) => some (.num ((n : Nat) : Int), rest)
      | none => none

/-- Match an expected literal continuation (the scanner's direct comparison of
`s[idx:idx+k]` against `"null"`, `"true"`, `"false"` bodies). -/
def dropLit : List Char → List Char → Option (List Char)
  | [], s => some s
  | _ :: _, [] => none
  | c :: p, c' :: s => if c' = c then dropLit p s else none

mutual

/-- Scan one JSON value (`json.scanner.py_make_scanner`'s `_scan_once`), with
fuel bounding the recursion depth; `jsonLoads` supplies enough for any input. -/
def parseVal : Nat → List Char → Option (JsonV × List Char)
  | 0, _ => none
  | fuel + 1, s =>
    match skipWs s with
    | [] => none
    | c :: cs =>
      if c = '"' then (parseStringBody [] cs).map fun p => (.str p.1, p.2)
      else if c = '\x7b' then
        match skipWs cs with
        | [] => none
        | c2 :: cs2 =>
          if c2 = '\x7d' then some (.obj [], cs2)
          else parseMembers fuel [] (c2 :: cs2)
      else if c = '[' then
        match skipWs cs with
        | [] => none
        | c2 :: cs2 =>
          if c2 = ']' then some (.arr [], cs2)
          else parseElems fuel [] (c2 :: cs2)
      else if c = 'n' then (dropLit ['u', 'l', 'l'] cs).map fun r => (.null, r)
      else if c = 't' then (dropLit ['r', 'u', 'e'] cs).map fun r => (.bool true, r)
      else if c = 'f' then (dropLit ['a', 'l', 's', 'e'] cs).map fun r => (.bool false, r)
      else parseNumber (c :: cs)

/-- Members of a non-empty object (`json.decoder.JSONObject` loop): a quoted
key, `:`, a value, then `,` to continue or `\x7d` to finish. -/
def parseMembers : Nat → List (List Char × JsonV) → List Char →
    Option (JsonV × List Char)
  | 0, _, _ => none
  | fuel + 1, acc, s =>
    match skipWs s with
    | [] => none
    | c :: cs =>
      if c = '"' then
        match parseStringBody [] cs with
        | none => none
        | some (key, rest) =>
          match skipWs rest with
          | [] => none
          | c2 :: rest2 =>
            if c2 = ':' then
              match parseVal fuel rest2 with
              | none => none
              | some (v, rest3) =>
                match skipWs rest3 with
                | [] => none
                | c3 :: rest4 =>
                  if c3 = ',' then parseMembers fuel ((key, v) :: acc) rest4
                  else if c3 = '\x7d' then some (.obj ((key, v) :: acc).reverse, rest4)
                  else none
            else none
      else none

/-- Elements of a non-empty array (`json.decoder.JSONArray` loop). -/
def parseElems : Nat → List JsonV → List Char → Option (JsonV × List Char)
  | 0, _, _ => none
  | fuel + 1, acc, s =>
    match parseVal fuel s with
    | none => none
    | some (v, rest) =>
      match skipWs rest with
      | [] => none
      | c :: rest2 =>
        if c = ',' then parseElems fuel (v :: acc) rest2
        else if c = ']' then some (.arr (v :: acc).reverse, rest2)
        else none

end

/-- `json.loads`: scan one value and require only whitespace to follow
("Extra data" otherwise).  The fuel `length + 1` suffices for any parse, since
every level of nesting consumes at least one character. -/
def jsonLoads (s : List Char) : Option JsonV :=
  match parseVal (s.length + 1) s with
  | some (v, rest) => if skipWs rest = [] then some v else none
  | none => none

/-- Python `str.strip()` as the client applies it to a received line (the
characters it meets here are JSON whitespace). -/
def stripChars (s : List Char) : List Char :=
  (((s.dropWhile isJsonWs).reverse).dropWhile isJsonWs).reverse

/-! ## Codec lemmas: characters and hex digits -/

theorem toNat_ofNat_valid {n : Nat} (h : n.isValidChar) : (Char.ofNat n).toNat = n := by
  unfold Char.ofNat
  rw [dif_pos h]
  rfl

theorem char_eq_of_toNat {c d : Char} (h : c.toNat = d.toNat) : c = d := by
  have hc := Char.ofNat_toNat c
  rw [h, Char.ofNat_toNat] at hc
  exact hc.symm

/-- The numeric form of a `Char`'s validity: not a surrogate, below `0x110000`. -/
theorem char_valid_nat (c : Char) :
    c.toNat < 55296 ∨ (57343 < c.toNat ∧ c.toNat < 1114112) := c.valid

theorem hexVal_hexDigit {d : Nat} (h : d < 16) : hexVal (hexDigit d) = some d := by
  interval_cases d <;> decide

theorem digitChar_toNat {n : Nat} (h : n < 10) : (digitChar n).toNat = 48 + n := by
  have : (48 + n).isValidChar := Or.inl (by omega)
  simpa [digitChar] using toNat_ofNat_valid this

theorem isDigitChar_digitChar {n : Nat} (h : n < 10) : isDigitChar (digitChar n) = true := by
  simp [isDigitChar, digitChar_toNat h]
  omega

/-! ## Codec lemmas: `\uXXXX` escapes -/

theorem parseUEsc_bmp {n : Nat} (hlt : n < 65536) (hs1 : ¬(55296 ≤ n ∧ n < 56320))
    (hs2 : ¬(56320 ≤ n ∧ n < 57344)) (rest : List Char) :
    parseUEsc (hex4 n ++ rest) = some (Char.ofNat n, rest) := by
  have h1 : n / 4096 % 16 < 16 := Nat.mod_lt _ (by norm_num)
  have h2 : n / 256 % 16 < 16 := Nat.mod_lt _ (by norm_num)
  have h3 : n / 16 % 16 < 16 := Nat.mod_lt _ (by norm_num)
  have h4 : n % 16 < 16 := Nat.mod_lt _ (by norm_num)
  have hsum : n / 4096 % 16 * 4096 + n / 256 % 16 * 256 + n / 16 % 16 * 16 + n % 16 = n := by
    omega
  simp only [hex4, List.cons_append, List.nil_append, parseUEsc, hexVal_hexDigit h1,
    hexVal_hexDigit h2, hexVal_hexDigit h3, hexVal_hexDigit h4, hsum]
  rw [if_neg hs1, if_neg hs2]

theorem parseUEsc_pair {hi lo : Nat} (hH : 55296 ≤ hi ∧ hi < 56320)
    (hL : 56320 ≤ lo ∧ lo < 57344) (rest : List Char) :
    parseUEsc (hex4 hi ++ '\\' :: 'u' :: hex4 lo ++ rest) =
      some (Char.ofNat (65536 + (hi - 55296) * 1024 + (lo - 56320)), rest) := by
  have hia : hi / 4096 % 16 < 16 := Nat.mod_lt _ (by norm_num)
  have hib : hi / 256 % 16 < 16 := Nat.mod_lt _ (by norm_num)
  have hic : hi / 16 % 16 < 16 := Nat.mod_lt _ (by norm_num)
  have hid : hi % 16 < 16 := Nat.mod_lt _ (by norm_num)
  have hla : lo / 4096 % 16 < 16 := Nat.mod_lt _ (by norm_num)
  have hlb : lo / 256 % 16 < 16 := Nat.mod_lt _ (by norm_num)
  have hlc : lo / 16 % 16 < 16 := Nat.mod_lt _ (by norm_num)
  have hld : lo % 16 < 16 := Nat.mod_lt _ (by norm_num)
  have hisum : hi / 4096 % 16 * 4096 + hi / 256 % 16 * 256 + hi / 16 % 16 * 16 + hi % 16 = hi := by
    omega
  have hlsum : lo / 4096 % 16 * 4096 + lo / 256 % 16 * 256 + lo / 16 % 16 * 16 + lo % 16 = lo := by
    omega
  simp only [hex4, List.cons_append, List.nil_append, List.append_assoc, parseUEsc,
    hexVal_hexDigit hia, hexVal_hexDigit hib, hexVal_hexDigit hic, hexVal_hexDigit hid,
    hexVal_hexDigit hla, hexVal_hexDigit hlb, hexVal_hexDigit hlc, hexVal_hexDigit hld,
    hisum, hlsum]
  rw [if_pos hH]
  simp only [and_self, if_true]
  rw [if_pos hL]

/-- Scanning `\uXXXX...` at the head of a string body: step by whatever
`parseUEsc` decodes. -/
theorem parseStringBody_uesc (acc s tail : List Char) (ch : Char)
    (h : parseUEsc s = some (ch, tail)) :
    parseStringBody acc ('\\' :: 'u' :: s) = parseStringBody (ch :: acc) tail := by
  simp only [parseStringBody]
  rw [if_neg (show ¬('\\' : Char) = '"' from by decide)]
  norm_num
  split
  · rename_i heq
    rw [h] at heq
    obtain ⟨rfl, rfl⟩ := by simpa using heq
    rfl
  · rename_i heq
    rw [h] at heq
    cases heq

/-- Decoding inverts the encoder's per-character escaping: scanning the escape
of `c` appends `c` to the accumulator and continues. -/
theorem parseStringBody_escapeChar (c : Char) (acc tail : List Char) :
    parseStringBody acc (escapeChar c ++ tail) = parseStringBody (c :: acc) tail := by
  have hval := char_valid_nat c
  by_cases h1 : c = '"'
  · subst h1
    simp [escapeChar, parseStringBody, escCharOf]
  by_cases h2 : c = '\\'
  · subst h2
    simp [escapeChar, parseStringBody, escCharOf]
  by_cases h3 : c.toNat = 8
  · have hc : c = '\x08' := char_eq_of_toNat (by rw [h3]; rfl)
    subst hc
    simp [escapeChar, parseStringBody, escCharOf]
  by_cases h4 : c.toNat = 9
  · have hc : c = '\t' := char_eq_of_toNat (by rw [h4]; rfl)
    subst hc
    simp [escapeChar, parseStringBody, escCharOf]
  by_cases h5 : c.toNat = 10
  · have hc : c = '\n' := char_eq_of_toNat (by rw [h5]; rfl)
    subst hc
    simp [escapeChar, parseStringBody, escCharOf]
  by_cases h6 : c.toNat = 12
  · have hc : c = '\x0c' := char_eq_of_toNat (by rw [h6]; rfl)
    subst hc
    simp [escapeChar, parseStringBody, escCharOf]
  by_cases h7 : c.toNat = 13
  · have hc : c = '\x0d' := char_eq_of_toNat (by rw [h7]; rfl)
    subst hc
    simp [escapeChar, parseStringBody, escCharOf]
  by_cases h8 : c.toNat < 32
  · have hesc : escapeChar c = '\\' :: 'u' :: hex4 c.toNat := by
      simp [escapeChar, h1, h2, h3, h4, h5, h6, h7, h8]
    rw [hesc]
    have hbmp := @parseUEsc_bmp c.toNat (by omega) (by omega) (by omega) tail
    rw [List.cons_append, List.cons_append, parseStringBody_uesc _ _ _ _ hbmp,
      Char.ofNat_toNat]
  by_cases h9 : c.toNat < 127
  · have hesc : escapeChar c = [c] := by
      simp [escapeChar, h1, h2, h3, h4, h5, h6, h7, h8, h9]
    rw [hesc]
    rw [List.cons_append, List.nil_append, parseStringBody.eq_def]
    simp only [if_neg h1, if_neg h2, if_neg h8, if_neg (by omega : ¬c.toNat < 32)]
  by_cases h10 : c.toNat < 65536
  · have hesc : escapeChar c = '\\' :: 'u' :: hex4 c.toNat := by
      simp [escapeChar, h1, h2, h3, h4, h5, h6, h7, h8, h9, h10]
    rw [hesc]
    have hbmp := @parseUEsc_bmp c.toNat (by omega) (by omega) (by omega) tail
    rw [List.cons_append, List.cons_append, parseStringBody_uesc _ _ _ _ hbmp,
      Char.ofNat_toNat]
  · have hesc : escapeChar c =
        ('\\' :: 'u' :: hex4 (55296 + (c.toNat - 65536) / 1024)) ++
          ('\\' :: 'u' :: hex4 (56320 + (c.toNat - 65536) % 1024)) := by
      simp [escapeChar, h1, h2, h3, h4, h5, h6, h7, h8, h9, h10]
    rw [hesc]
    have hpair := @parseUEsc_pair (55296 + (c.toNat - 65536) / 1024)
      (56320 + (c.toNat - 65536) % 1024) (by omega) (by omega) tail
    have hchar : (65536 + ((55296 + (c.toNat - 65536) / 1024) - 55296) * 1024 +
        ((56320 + (c.toNat - 65536) % 1024) - 56320)) = c.toNat := by omega
    rw [hchar] at hpair
    simp only [List.cons_append, List.append_assoc, List.nil_append] at hpair ⊢
    rw [parseStringBody_uesc _ _ _ _ hpair, Char.ofNat_toNat]

/-- Decoding inverts the whole-string escaping: the scan consumes the escaped
characters up to the closing quote. -/
theorem parseStringBody_flatMap :
    ∀ (s acc rest : List Char),
      parseStringBody acc (s.flatMap escapeChar ++ '"' :: rest) =
        some (acc.reverse ++ s, rest)
  | [], acc, rest => by
    rw [List.flatMap_nil, List.nil_append, parseStringBody.eq_def]
    simp
  | c :: s, acc, rest => by
    rw [List.flatMap_cons, List.append_assoc, parseStringBody_escapeChar,
      parseStringBody_flatMap s (c :: acc) rest]
    simp

/-! ## Codec lemmas: numbers -/

/-- The condition under which a decimal token cannot be extended by what
follows it: in encoder output a number is followed by `", "`, `]`, `\x7d`, or
the end of input. -/
def NumSafe (rest : List Char) : Prop :=
  ∀ c, rest.head? = some c → isDigitChar c = false ∧ c ≠ '.' ∧ c ≠ 'e' ∧ c ≠ 'E'

theorem numSafe_nil : NumSafe [] := by intro c h; cases h

theorem natDigits_digits : ∀ n : Nat, ∀ c ∈ natDigits n, isDigitChar c = true := by
  intro n
  induction n using Nat.strong_induction_on with
  | _ n ih =>
    intro c hc
    rw [natDigits] at hc
    by_cases h : n < 10
    · rw [dif_pos h] at hc
      simp at hc
      subst hc
      exact isDigitChar_digitChar h
    · rw [dif_neg h] at hc
      rcases List.mem_append.1 hc with h1 | h1
      · exact ih (n / 10) (Nat.div_lt_self (by omega) (by omega)) c h1
      · simp at h1
        subst h1
        exact isDigitChar_digitChar (Nat.mod_lt _ (by norm_num))

theorem natDigits_ne_nil (n : Nat) : natDigits n ≠ [] := by
  rw [natDigits]
  by_cases h : n < 10
  · rw [dif_pos h]
    simp
  · rw [dif_neg h]
    simp

/-- Greedy digit consumption over a digit run followed by a non-digit. -/
theorem parseDigits_append :
    ∀ (ds : List Char) (acc : Nat) (rest : List Char),
      (∀ c ∈ ds, isDigitChar c = true) →
      (∀ c, rest.head? = some c → isDigitChar c = false) →
      parseDigits acc (ds ++ rest) =
        (ds.foldl (fun a c => a * 10 + (c.toNat - 48)) acc, rest)
  | [], acc, rest, _, hrest => by
    match rest with
    | [] => simp [parseDigits]
    | c :: cs =>
      have := hrest c rfl
      simp [parseDigits, this]
  | d :: ds, acc, rest, hds, hrest => by
    have hd : isDigitChar d = true := hds d (by simp)
    rw [List.cons_append, parseDigits, if_pos hd,
      parseDigits_append ds _ rest (fun c hc => hds c (by simp [hc])) hrest]
    rfl

/-- Folding the digit characters of `n` accumulates `n` positionally. -/
theorem natDigits_foldl (n : Nat) :
    ∀ acc : Nat,
      (natDigits n).foldl (fun a c => a * 10 + (c.toNat - 48)) acc =
        acc * 10 ^ (natDigits n).length + n := by
  induction n using Nat.strong_induction_on with
  | _ n ih =>
    intro acc
    rw [natDigits]
    by_cases h : n < 10
    · rw [dif_pos h]
      simp [digitChar_toNat h]
    · rw [dif_neg h]
      rw [List.foldl_append, ih (n / 10) (Nat.div_lt_self (by omega) (by omega)) acc]
      have hm : n % 10 < 10 := Nat.mod_lt _ (by norm_num)
      simp [digitChar_toNat hm]
      rw [Nat.pow_succ]
      have hdm : n / 10 * 10 + n % 10 = n := by omega
      ring_nf
      omega

/-- A multi-digit rendering never starts with `'0'`. -/
theorem natDigits_head_ne_zero : ∀ n : Nat, n ≠ 0 → (natDigits n).head? ≠ some '0' := by
  intro n
  induction n using Nat.strong_induction_on with
  | _ n ih =>
    intro hn
    rw [natDigits]
    by_cases h : n < 10
    · rw [dif_pos h]
      simp
      intro hc
      have := congrArg Char.toNat hc
      rw [digitChar_toNat h] at this
      have : (48 : Nat) + n = 48 := by
        simpa using this
      omega
    · rw [dif_neg h]
      obtain ⟨d, ds, hds⟩ := List.exists_cons_of_ne_nil (natDigits_ne_nil (n / 10))
      have := ih (n / 10) (Nat.div_lt_self (by omega) (by omega)) (by omega)
      rw [hds] at this ⊢
      simpa using this

/-- The digits step: scanning `natDigits n` followed by a safe tail yields
`n` and the tail. -/
theorem parseDigits_natDigits (n : Nat) (rest : List Char) (hsafe : NumSafe rest)
    (d : Char) (ds : List Char) (hds : natDigits n = d :: ds) :
    parseDigits (d.toNat - 48) (ds ++ rest) = (n, rest) := by
  have hdig : ∀ c ∈ ds, isDigitChar c = true := fun c hc =>
    natDigits_digits n c (by rw [hds]; exact List.mem_cons_of_mem _ hc)
  have hrest : ∀ c, rest.head? = some c → isDigitChar c = false := fun c hc =>
    (hsafe c hc).1
  rw [parseDigits_append ds _ rest hdig hrest]
  have hfold := natDigits_foldl n 0
  rw [hds] at hfold
  simp only [List.foldl_cons, Nat.zero_mul, Nat.zero_add] at hfold
  rw [hfold]

/-- The unsigned scanner inverts the digit rendering. -/
theorem parseUInt_natDigits (n : Nat) (rest : List Char) (hsafe : NumSafe rest) :
    parseUInt (natDigits n ++ rest) = some (n, rest) := by
  obtain ⟨d, ds, hds⟩ := List.exists_cons_of_ne_nil (natDigits_ne_nil n)
  have hd : isDigitChar d = true := natDigits_digits n d (by rw [hds]; simp)
  have hno : ¬(d = '0' ∧ (ds ++ rest).head?.elim false isDigitChar = true) := by
    by_cases h : n < 10
    · rw [natDigits, dif_pos h] at hds
      obtain ⟨hd0, hds0⟩ := by simpa using hds
      subst hds0
      by_cases h0 : n = 0
      · subst h0
        rintro ⟨-, hx⟩
        simp only [List.nil_append] at hx
        cases hr : rest.head? with
        | none => rw [hr] at hx; cases hx
        | some c =>
          rw [hr] at hx
          simp [(hsafe c hr).1] at hx
      · rintro ⟨h0', -⟩
        subst hd0
        have := congrArg Char.toNat h0'
        rw [digitChar_toNat h] at this
        have h48 : ('0' : Char).toNat = 48 := by decide
        omega
    · rintro ⟨h0, -⟩
      exact natDigits_head_ne_zero n (by omega) (by rw [hds, h0]; rfl)
  have hscan := parseDigits_natDigits n rest hsafe d ds hds
  have hfloat : rest.head?.elim false
      (fun e => decide (e = '.' ∨ e = 'e' ∨ e = 'E')) = false := by
    cases hr : rest.head? with
    | none => rfl
    | some c =>
      obtain ⟨-, h1, h2, h3⟩ := hsafe c hr
      simp [h1, h2, h3]
  rw [hds, List.cons_append, parseUInt]
  rw [dif_pos hd, if_neg hno, hscan]
  simp only [hfloat]
  rfl

/-- The number scanner inverts the integer rendering. -/
theorem parseNumber_intChars (i : Int) (rest : List Char) (hsafe : NumSafe rest) :
    parseNumber (intChars i ++ rest) = some (.num i, rest) := by
  by_cases hneg : i < 0
  · rw [intChars, if_pos hneg, List.cons_append, parseNumber]
    simp only [if_pos rfl, parseUInt_natDigits i.natAbs rest hsafe]
    have : -((i.natAbs : Nat) : Int) = i := by omega
    simp [this]
    rw [abs_of_neg hneg, neg_neg]
  · obtain ⟨d, ds, hds⟩ := List.exists_cons_of_ne_nil (natDigits_ne_nil i.toNat)
    have hd : isDigitChar d = true := natDigits_digits i.toNat d (by rw [hds]; simp)
    have hdm : ¬ d = '-' := by
      intro h
      rw [h] at hd
      exact absurd hd (by decide)
    rw [intChars, if_neg hneg, hds, List.cons_append, parseNumber]
    rw [if_neg hdm, ← List.cons_append, ← hds, parseUInt_natDigits i.toNat rest hsafe]
    have : ((i.toNat : Nat) : Int) = i := by omega
    simp [this]

/-! ## Codec lemmas: scanning a dumped value -/

mutual

/-- Fuel consumed by the scanner on an encoded value: one unit per nesting
step and per element, as `parseVal`/`parseElems`/`parseMembers` decrement. -/
def costJ : JsonV → Nat
  | .null => 1
  | .bool _ => 1
  | .num _ => 1
  | .str _ => 1
  | .arr es => 1 + costElems es
  | .obj fs => 1 + costFields fs

def costElems : List JsonV → Nat
  | [] => 0
  | e :: es => 1 + costJ e + costElems es

def costFields : List (List Char × JsonV) → Nat
  | [] => 0
  | (_, v) :: fs => 1 + costJ v + costFields fs

end

theorem char_ne_of_toNat_ne {c d : Char} (h : c.toNat ≠ d.toNat) : c ≠ d :=
  fun he => h (congrArg Char.toNat he)

theorem skipWs_not {c : Char} (h : isJsonWs c = false) (cs : List Char) :
    skipWs (c :: cs) = c :: cs := by
  simp [skipWs, h]

theorem parseVal_ws (fuel : Nat) (s : List Char) :
    parseVal fuel (' ' :: s) = parseVal fuel s := by
  cases fuel with
  | zero => rfl
  | succ f =>
    have : skipWs (' ' :: s) = skipWs s := by simp [skipWs, isJsonWs]
    simp only [parseVal, this]

theorem parseElems_ws (fuel : Nat) (acc : List JsonV) (s : List Char) :
    parseElems fuel acc (' ' :: s) = parseElems fuel acc s := by
  cases fuel with
  | zero => rfl
  | succ f => simp only [parseElems, parseVal_ws]

theorem parseMembers_ws (fuel : Nat) (acc : List (List Char × JsonV)) (s : List Char) :
    parseMembers fuel acc (' ' :: s) = parseMembers fuel acc s := by
  cases fuel with
  | zero => rfl
  | succ f =>
    have : skipWs (' ' :: s) = skipWs s := by simp [skipWs, isJsonWs]
    simp only [parseMembers, this]

/-- Everything the scanner needs to know about a decimal digit head: it is no
whitespace, no structural character, and starts no keyword. -/
theorem digit_route {c : Char} (h : isDigitChar c = true) :
    isJsonWs c = false ∧ c ≠ '"' ∧ c ≠ '\x7b' ∧ c ≠ '[' ∧ c ≠ 'n' ∧ c ≠ 't' ∧
      c ≠ 'f' ∧ c ≠ ']' ∧ c ≠ '\x7d' ∧ c ≠ ',' := by
  have hn : 48 ≤ c.toNat ∧ c.toNat ≤ 57 := by simpa [isDigitChar] using h
  have e32 : (' ' : Char).toNat = 32 := by decide
  have e9 : ('\t' : Char).toNat = 9 := by decide
  have e10 : ('\n' : Char).toNat = 10 := by decide
  have e13 : ('\x0d' : Char).toNat = 13 := by decide
  have e34 : ('"' : Char).toNat = 34 := by decide
  have e123 : ('\x7b' : Char).toNat = 123 := by decide
  have e91 : ('[' : Char).toNat = 91 := by decide
  have e110 : ('n' : Char).toNat = 110 := by decide
  have e116 : ('t' : Char).toNat = 116 := by decide
  have e102 : ('f' : Char).toNat = 102 := by decide
  have e93 : (']' : Char).toNat = 93 := by decide
  have e125 : ('\x7d' : Char).toNat = 125 := by decide
  have e44 : (',' : Char).toNat = 44 := by decide
  refine ⟨?_, ?_, ?_, ?_, ?_, ?_, ?_, ?_, ?_, ?_⟩
  · simp only [isJsonWs, Bool.decide_or, Bool.or_eq_false_iff, decide_eq_false_iff_not]
    exact ⟨char_ne_of_toNat_ne (by omega), char_ne_of_toNat_ne (by omega),
      char_ne_of_toNat_ne (by omega), char_ne_of_toNat_ne (by omega)⟩
  · exact char_ne_of_toNat_ne (by omega)
  · exact char_ne_of_toNat_ne (by omega)
  · exact char_ne_of_toNat_ne (by omega)
  · exact char_ne_of_toNat_ne (by omega)
  · exact char_ne_of_toNat_ne (by omega)
  · exact char_ne_of_toNat_ne (by omega)
  · exact char_ne_of_toNat_ne (by omega)
  · exact char_ne_of_toNat_ne (by omega)
  · exact char_ne_of_toNat_ne (by omega)

/-- The head character of a rendered integer: `-` or a digit. -/
theorem intChars_head (i : Int) :
    ∃ c cs, intChars i = c :: cs ∧ (c = '-' ∨ isDigitChar c = true) := by
  rw [intChars]
  by_cases h : i < 0
  · exact ⟨'-', _, by rw [if_pos h], Or.inl rfl⟩
  · rw [if_neg h]
    obtain ⟨d, ds, hds⟩ := List.exists_cons_of_ne_nil (natDigits_ne_nil i.toNat)
    exact ⟨d, ds, hds, Or.inr (natDigits_digits _ d (by rw [hds]; simp))⟩

/-- The head character of any dumped value is no whitespace and no closer. -/
theorem dumpVal_head (v : JsonV) :
    ∃ c cs, dumpVal v = c :: cs ∧ isJsonWs c = false ∧ c ≠ ']' ∧ c ≠ '\x7d' := by
  cases v with
  | num i =>
    obtain ⟨c, cs, hci, hc⟩ := intChars_head i
    refine ⟨c, cs, by rw [dumpVal, hci], ?_, ?_, ?_⟩
    · rcases hc with rfl | hd
      · decide
      · exact (digit_route hd).1
    · rcases hc with rfl | hd
      · decide
      · exact (digit_route hd).2.2.2.2.2.2.2.1
    · rcases hc with rfl | hd
      · decide
      · exact (digit_route hd).2.2.2.2.2.2.2.2.1
  | bool b => rcases b with - | - <;> exact ⟨_, _, rfl, by decide, by decide, by decide⟩
  | null => exact ⟨_, _, rfl, by decide, by decide, by decide⟩
  | str s => exact ⟨_, _, rfl, by decide, by decide, by decide⟩
  | arr es => exact ⟨_, _, rfl, by decide, by decide, by decide⟩
  | obj fs => exact ⟨_, _, rfl, by decide, by decide, by decide⟩

theorem numSafe_comma (t : List Char) : NumSafe (',' :: t) := by
  intro c hc
  obtain rfl : ',' = c := by simpa using hc
  refine ⟨by decide, by decide, by decide, by decide⟩

theorem numSafe_rbracket (t : List Char) : NumSafe (']' :: t) := by
  intro c hc
  obtain rfl : ']' = c := by simpa using hc
  refine ⟨by decide, by decide, by decide, by decide⟩

theorem numSafe_rbrace (t : List Char) : NumSafe ('\x7d' :: t) := by
  intro c hc
  obtain rfl : '\x7d' = c := by simpa using hc
  refine ⟨by decide, by decide, by decide, by decide⟩

mutual

/-- Completeness of the scanner on encoded values: with fuel at least the
value's cost, scanning `dumpVal v` before a safe tail returns `v` and the
tail. -/
theorem parseVal_complete :
    ∀ (v : JsonV) (fuel : Nat) (rest : List Char),
      costJ v ≤ fuel → NumSafe rest →
      parseVal fuel (dumpVal v ++ rest) = some (v, rest)
  | v, 0, _, hc, _ => by
    exfalso
    cases v <;> simp [costJ] at hc
  | .null, fuel + 1, rest, _, _ => by
    simp [parseVal, dumpVal, skipWs, isJsonWs, dropLit]
  | .bool true, fuel + 1, rest, _, _ => by
    simp [parseVal, dumpVal, skipWs, isJsonWs, dropLit]
  | .bool false, fuel + 1, rest, _, _ => by
    simp [parseVal, dumpVal, skipWs, isJsonWs, dropLit]
  | .num i, fuel + 1, rest, _, hs => by
    obtain ⟨c, cs, hci, hc⟩ := intChars_head i
    have hfacts : isJsonWs c = false ∧ c ≠ '"' ∧ c ≠ '\x7b' ∧ c ≠ '[' ∧ c ≠ 'n' ∧
        c ≠ 't' ∧ c ≠ 'f' := by
      rcases hc with rfl | hd
      · exact ⟨by decide, by decide, by decide, by decide, by decide, by decide, by decide⟩
      · obtain ⟨a1, a2, a3, a4, a5, a6, a7, -⟩ := digit_route hd
        exact ⟨a1, a2, a3, a4, a5, a6, a7⟩
    obtain ⟨hw, h1, h2, h3, h4, h5, h6⟩ := hfacts
    rw [dumpVal, hci, List.cons_append]
    simp only [parseVal, skipWs_not hw]
    rw [if_neg h1, if_neg h2, if_neg h3, if_neg h4, if_neg h5, if_neg h6,
      ← List.cons_append, ← hci, parseNumber_intChars i rest hs]
  | .str s, fuel + 1, rest, _, _ => by
    have h := parseStringBody_flatMap s [] rest
    simp only [List.reverse_nil, List.nil_append] at h
    simp [parseVal, dumpVal, encStr, skipWs, isJsonWs, List.append_assoc, h]
  | .arr [], fuel + 1, rest, _, _ => by
    simp [parseVal, dumpVal, dumpElems, skipWs, isJsonWs]
  | .arr (e :: es), fuel + 1, rest, hc, hs => by
    obtain ⟨c, cs, hcs, hw, hne1, hne2⟩ := dumpVal_head e
    have hhead : ∃ t, dumpElems (e :: es) ++ ']' :: rest = c :: t := by
      cases es with
      | nil => exact ⟨cs ++ ']' :: rest, by rw [dumpElems, hcs, List.cons_append]⟩
      | cons e' es' =>
        refine ⟨cs ++ (',' :: ' ' :: dumpElems (e' :: es')) ++ ']' :: rest, ?_⟩
        simp [dumpElems, hcs]
    obtain ⟨t, ht⟩ := hhead
    have hcost : costElems (e :: es) ≤ fuel := by
      simp only [costJ] at hc
      omega
    have hrec := parseElems_complete (e :: es) [] fuel rest (by simp) hcost hs
    simp only [List.reverse_nil, List.nil_append] at hrec
    simp only [dumpVal, List.cons_append, List.append_assoc, List.singleton_append]
    simp only [parseVal, skipWs_not (by decide : isJsonWs '[' = false)]
    rw [if_neg (by decide : ¬('[' : Char) = '"'), if_neg (by decide : ¬('[' : Char) = '\x7b')]
    simp only [if_true, List.nil_append, ht, skipWs_not hw, if_neg hne1]
    rw [← ht, hrec]
  | .obj [], fuel + 1, rest, _, _ => by
    simp [parseVal, dumpVal, dumpFields, skipWs, isJsonWs]
  | .obj ((k, v) :: fs), fuel + 1, rest, hc, hs => by
    have hhead : ∃ t, dumpFields ((k, v) :: fs) ++ '\x7d' :: rest = '"' :: t := by
      cases fs with
      | nil =>
        exact ⟨k.flatMap escapeChar ++ ['"'] ++ ':' :: ' ' :: dumpVal v ++ '\x7d' :: rest,
          by simp [dumpFields, encStr]⟩
      | cons f' fs' =>
        refine ⟨k.flatMap escapeChar ++ ['"'] ++ ':' :: ' ' :: dumpVal v ++
          (',' :: ' ' :: dumpFields (f' :: fs')) ++ '\x7d' :: rest, ?_⟩
        simp [dumpFields, encStr]
    obtain ⟨t, ht⟩ := hhead
    have hcost : costFields ((k, v) :: fs) ≤ fuel := by
      simp only [costJ] at hc
      omega
    have hrec := parseMembers_complete ((k, v) :: fs) [] fuel rest (by simp) hcost hs
    simp only [List.reverse_nil, List.nil_append] at hrec
    simp only [dumpVal, List.cons_append, List.append_assoc, List.singleton_append]
    simp only [parseVal, skipWs_not (by decide : isJsonWs '\x7b' = false)]
    rw [if_neg (by decide : ¬('\x7b' : Char) = '"')]
    simp only [if_true, List.nil_append, ht, skipWs_not (by decide : isJsonWs '"' = false),
      if_neg (by decide : ¬('"' : Char) = '\x7d')]
    rw [← ht, hrec]

/-- Completeness of the array-element loop. -/
theorem parseElems_complete :
    ∀ (es pre : List JsonV) (fuel : Nat) (rest : List Char),
      es ≠ [] → costElems es ≤ fuel → NumSafe rest →
      parseElems fuel pre (dumpElems es ++ ']' :: rest) =
        some (.arr (pre.reverse ++ es), rest)
  | [], _, _, _, hne, _, _ => absurd rfl hne
  | e :: es, _, 0, _, _, hc, _ => by
    exfalso
    simp [costElems] at hc
  | [e], pre, fuel + 1, rest, _, hc, _ => by
    have hcost : costJ e ≤ fuel := by
      simp only [costElems] at hc
      omega
    have hval := parseVal_complete e fuel (']' :: rest) hcost (numSafe_rbracket rest)
    simp only [dumpElems, parseElems]
    rw [hval]
    simp [skipWs_not (by decide : isJsonWs ']' = false)]
  | e :: e' :: es, pre, fuel + 1, rest, _, hc, hs => by
    have hcost1 : costJ e ≤ fuel := by
      simp only [costElems] at hc
      omega
    have hcost2 : costElems (e' :: es) ≤ fuel := by
      simp only [costElems] at hc ⊢
      omega
    have hval := parseVal_complete e fuel
      (',' :: ' ' :: (dumpElems (e' :: es) ++ ']' :: rest)) hcost1 (numSafe_comma _)
    have hrec := parseElems_complete (e' :: es) (e :: pre) fuel rest (by simp) hcost2 hs
    simp only [dumpElems, List.cons_append, List.append_assoc]
    simp only [parseElems]
    rw [hval]
    simp only [skipWs_not (by decide : isJsonWs ',' = false), if_true]
    rw [parseElems_ws, hrec]
    simp

/-- Completeness of the object-member loop. -/
theorem parseMembers_complete :
    ∀ (fs pre : List (List Char × JsonV)) (fuel : Nat) (rest : List Char),
      fs ≠ [] → costFields fs ≤ fuel → NumSafe rest →
      parseMembers fuel pre (dumpFields fs ++ '\x7d' :: rest) =
        some (.obj (pre.reverse ++ fs), rest)
  | [], _, _, _, hne, _, _ => absurd rfl hne
  | (k, v) :: fs, _, 0, _, _, hc, _ => by
    exfalso
    simp [costFields] at hc
  | [(k, v)], pre, fuel + 1, rest, _, hc, _ => by
    have hcost : costJ v ≤ fuel := by
      simp only [costFields] at hc
      omega
    have hstr := parseStringBody_flatMap k [] (':' :: ' ' :: (dumpVal v ++ '\x7d' :: rest))
    simp only [List.reverse_nil, List.nil_append] at hstr
    have hval := parseVal_complete v fuel ('\x7d' :: rest) hcost (numSafe_rbrace rest)
    simp only [dumpFields, encStr, List.cons_append, List.append_assoc,
      List.singleton_append, List.nil_append]
    simp only [parseMembers, skipWs_not (by decide : isJsonWs '"' = false), if_true]
    rw [hstr]
    simp only [skipWs_not (by decide : isJsonWs ':' = false), if_true]
    rw [parseVal_ws, hval]
    simp only [skipWs_not (by decide : isJsonWs '\x7d' = false),
      if_neg (by decide : ¬('\x7d' : Char) = ','), if_true]
    simp
  | (k, v) :: (k', v') :: fs, pre, fuel + 1, rest, _, hc, hs => by
    have hcost1 : costJ v ≤ fuel := by
      simp only [costFields] at hc
      omega
    have hcost2 : costFields ((k', v') :: fs) ≤ fuel := by
      simp only [costFields] at hc ⊢
      omega
    have hstr := parseStringBody_flatMap k []
      (':' :: ' ' :: (dumpVal v ++ ',' :: ' ' :: (dumpFields ((k', v') :: fs) ++ '\x7d' :: rest)))
    simp only [List.reverse_nil, List.nil_append] at hstr
    have hval := parseVal_complete v fuel
      (',' :: ' ' :: (dumpFields ((k', v') :: fs) ++ '\x7d' :: rest)) hcost1 (numSafe_comma _)
    have hrec := parseMembers_complete ((k', v') :: fs) ((k, v) :: pre) fuel rest
      (by simp) hcost2 hs
    simp only [dumpFields, encStr, List.cons_append, List.append_assoc,
      List.singleton_append, List.nil_append]
    simp only [parseMembers, skipWs_not (by decide : isJsonWs '"' = false), if_true]
    rw [hstr]
    simp only [skipWs_not (by decide : isJsonWs ':' = false), if_true]
    rw [parseVal_ws, hval]
    simp only [skipWs_not (by decide : isJsonWs ',' = false), if_true]
    rw [parseMembers_ws, hrec]
    simp

end

theorem natDigits_length_pos (n : Nat) : 0 < (natDigits n).length := by
  obtain ⟨d, ds, hds⟩ := List.exists_cons_of_ne_nil (natDigits_ne_nil n)
  simp [hds]

theorem intChars_length_pos (i : Int) : 0 < (intChars i).length := by
  rw [intChars]
  by_cases h : i < 0
  · rw [if_pos h]
    simp
  · rw [if_neg h]
    exact natDigits_length_pos _

mutual

/-- The scanner's fuel cost of a value is covered by its encoding's length:
every unit of fuel corresponds to at least one encoded character. -/
theorem costJ_le_dump : ∀ v : JsonV, costJ v ≤ (dumpVal v).length
  | .null => by simp [costJ, dumpVal]
  | .bool true => by simp [costJ, dumpVal]
  | .bool false => by simp [costJ, dumpVal]
  | .num i => by
    have := intChars_length_pos i
    simp only [costJ, dumpVal]
    omega
  | .str s => by simp [costJ, dumpVal, encStr]
  | .arr es => by
    have := costElems_le_dump es
    simp only [costJ, dumpVal, List.length_cons, List.length_append]
    omega
  | .obj fs => by
    have := costFields_le_dump fs
    simp only [costJ, dumpVal, List.length_cons, List.length_append]
    omega

theorem costElems_le_dump : ∀ es : List JsonV, costElems es ≤ (dumpElems es).length + 1
  | [] => by simp [costElems, dumpElems]
  | [e] => by
    have := costJ_le_dump e
    simp only [costElems, costJ, dumpElems]
    omega
  | e :: e' :: es => by
    have h1 := costJ_le_dump e
    have h2 := costElems_le_dump (e' :: es)
    simp only [costElems] at h2 ⊢
    simp only [dumpElems, List.length_append, List.length_cons]
    omega

theorem costFields_le_dump :
    ∀ fs : List (List Char × JsonV), costFields fs ≤ (dumpFields fs).length + 1
  | [] => by simp [costFields, dumpFields]
  | [(k, v)] => by
    have := costJ_le_dump v
    simp only [costFields, costJ, dumpFields, List.length_append, List.length_cons]
    omega
  | (k, v) :: (k', v') :: fs => by
    have h1 := costJ_le_dump v
    have h2 := costFields_le_dump ((k', v') :: fs)
    simp only [costFields] at h2 ⊢
    simp only [dumpFields, List.length_append, List.length_cons]
    omega

end

/-- `json.loads` recovers any dumped value. -/
theorem jsonLoads_dumpVal (v : JsonV) : jsonLoads (dumpVal v) = some v := by
  have hfuel : costJ v ≤ (dumpVal v).length + 1 := by
    have := costJ_le_dump v
    omega
  have h := parseVal_complete v ((dumpVal v).length + 1) [] hfuel numSafe_nil
  rw [List.append_nil] at h
  simp [jsonLoads, h, skipWs]

/-- The last character of a rendered integer is a digit. -/
theorem intChars_last (i : Int) :
    ∃ cs d, intChars i = cs ++ [digitChar d] ∧ d < 10 := by
  have hnat : ∀ n : Nat, ∃ cs d, natDigits n = cs ++ [digitChar d] ∧ d < 10 := by
    intro n
    rw [natDigits]
    by_cases h : n < 10
    · exact ⟨[], n, by rw [dif_pos h]; rfl, h⟩
    · exact ⟨natDigits (n / 10), n % 10, by rw [dif_neg h], Nat.mod_lt _ (by norm_num)⟩
  rw [intChars]
  by_cases h : i < 0
  · obtain ⟨cs, d, hcs, hd⟩ := hnat i.natAbs
    exact ⟨'-' :: cs, d, by rw [if_pos h, hcs]; rfl, hd⟩
  · obtain ⟨cs, d, hcs, hd⟩ := hnat i.toNat
    exact ⟨cs, d, by rw [if_neg h, hcs], hd⟩

/-- The last character of any dumped value is no whitespace. -/
theorem dumpVal_last (v : JsonV) :
    ∃ cs c, dumpVal v = cs ++ [c] ∧ isJsonWs c = false := by
  cases v with
  | null => exact ⟨['n', 'u', 'l'], 'l', rfl, by decide⟩
  | bool b =>
    cases b with
    | true => exact ⟨['t', 'r', 'u'], 'e', rfl, by decide⟩
    | false => exact ⟨['f', 'a', 'l', 's'], 'e', rfl, by decide⟩
  | num i =>
    obtain ⟨cs, d, hcs, hd⟩ := intChars_last i
    exact ⟨cs, digitChar d, by rw [dumpVal, hcs],
      (digit_route (isDigitChar_digitChar hd)).1⟩
  | str s =>
    exact ⟨'"' :: s.flatMap escapeChar, '"', by simp [dumpVal, encStr], by decide⟩
  | arr es => exact ⟨'[' :: dumpElems es, ']', by simp [dumpVal], by decide⟩
  | obj fs => exact ⟨'\x7b' :: dumpFields fs, '\x7d', by simp [dumpVal], by decide⟩

/-- `str.strip()` of an encoded line: the added newline goes, nothing else
does, because an encoded value neither starts nor ends with whitespace. -/
theorem stripChars_encoded (s : List Char)
    (hhead : ∃ c cs, s = c :: cs ∧ isJsonWs c = false)
    (hlast : ∃ cs c, s = cs ++ [c] ∧ isJsonWs c = false) :
    stripChars (s ++ ['\n']) = s := by
  obtain ⟨c, cs, hh, hwc⟩ := hhead
  obtain ⟨cs', c', hl, hwc'⟩ := hlast
  rw [stripChars]
  have h1 : (s ++ ['\n']).dropWhile isJsonWs = s ++ ['\n'] := by
    rw [hh, List.cons_append, List.dropWhile_cons, hwc]
    simp
  rw [h1]
  have h2 : (s ++ ['\n']).reverse = '\n' :: s.reverse := by
    simp
  rw [h2, List.dropWhile_cons]
  simp only [(by decide : isJsonWs '\n' = true), if_true]
  have h3 : s.reverse.dropWhile isJsonWs = s.reverse := by
    rw [hl]
    simp only [List.reverse_append, List.reverse_singleton, List.singleton_append,
      List.dropWhile_cons, hwc']
    simp
  rw [h3, List.reverse_reverse]

/-- The client's framing of one outgoing message:
`json.dumps(message) + "\n"` (`send_message`, lines 73–74). -/
def encodeLine (v : JsonV) : List Char := dumpVal v ++ ['\n']

/-- The client's decoding of one received line:
`json.loads(response_line.decode().strip())` (`send_message`, line 82). -/
def decodeLine (s : List Char) : Option JsonV := jsonLoads (stripChars s)

/-- Round trip of the line codec on every JSON value. -/
theorem decodeLine_encodeLine (v : JsonV) : decodeLine (encodeLine v) = some v := by
  rw [decodeLine, encodeLine,
    stripChars_encoded _ (by
      obtain ⟨c, cs, h1, h2, -⟩ := dumpVal_head v
      exact ⟨c, cs, h1, h2⟩) (dumpVal_last v),
    jsonLoads_dumpVal]

/-! ## RPC messages

The dict shapes exchanged on the wire: a request as `send_message` builds it
(`{"jsonrpc": "2.0", "id": n, "method": method, "params": params}`, lines
65–70), and the two response shapes a JSON-RPC server answers with
(`result` or `error` beside `jsonrpc` and `id`). -/

inductive RpcMessage : Type
  | request (id : Int) (method : List Char) (params : List (List Char × JsonV))
  | response (id : Int) (result : JsonV)
  | errorResponse (id : Int) (error : JsonV)

/-- The JSON object of a message (the Python dict handed to `json.dumps`). -/
def messageJson : RpcMessage → JsonV
  | .request i m p =>
    .obj [("jsonrpc".toList, .str "2.0".toList), ("id".toList, .num i),
      ("method".toList, .str m), ("params".toList, .obj p)]
  | .response i r =>
    .obj [("jsonrpc".toList, .str "2.0".toList), ("id".toList, .num i),
      ("result".toList, r)]
  | .errorResponse i e =>
    .obj [("jsonrpc".toList, .str "2.0".toList), ("id".toList, .num i),
      ("error".toList, e)]

/-- Serializing one message to its newline-terminated record. -/
def encodeMessage (m : RpcMessage) : List Char := encodeLine (messageJson m)

/-! ## Client session (`SimpleMCPClient`) -/

/-- `__init__`: `self.message_id = 0`. -/
def initialMessageId : Nat := 0

/-- `_get_next_id`: `self.message_id += 1; return self.message_id`.
The pair is (returned id, new counter value). -/
def getNextId (messageId : Nat) : Nat × Nat :=
  (messageId + 1, messageId + 1)

/-- The request ids a session attaches over `n` successive `send_message`
calls starting from counter state `m`. -/
def idsFrom (m : Nat) : Nat → List Nat
  | 0 => []
  | n + 1 => (getNextId m).1 :: idsFrom (getNextId m).2 n

theorem idsFrom_eq_range' (m : Nat) : ∀ n, idsFrom m n = List.range' (m + 1) n := by
  intro n
  induction n generalizing m with
  | zero => rfl
  | succ n ih =>
    rw [idsFrom, List.range']
    exact congrArg _ (ih (m + 1))

/-- The distinguishable outcomes of `send_message` once a response line has
been decoded: the `raise Exception(f"Server error: ...")` path and the normal
`return response.get("result", {})` path.  `protocolDesync` is the failure the
specification describes for an id mismatch; it is part of the outcome
vocabulary so that its absence is statable, and no code path produces it. -/
inductive CallOutcome : Type
  | serverError (payload : JsonV)
  | protocolDesync
  | ok (result : JsonV)

/-- `send_message`'s handling of the decoded response object (lines 84–87):
`if "error" in response: raise Exception(f"Server error: {response['error']}")`
then `return response.get("result", {})`.  The id of the request just sent is
not consulted anywhere. -/
def handleResponse (response : List (List Char × JsonV)) : CallOutcome :=
  match dictGet response "error".toList with
  | some e => .serverError e
  | none => .ok ((dictGet response "result".toList).getD (.obj []))

/-! ## Dict lemmas -/

theorem dictGet_dictSet_self {V : Type} (d : List (List Char × V)) (k : List Char) (v : V) :
    dictGet (dictSet d k v) k = some v := by
  induction d with
  | nil => simp [dictGet, dictSet]
  | cons p rest ih =>
    obtain ⟨k', v'⟩ := p
    by_cases h : k' = k
    · simp [dictSet, dictGet, h]
    · simp [dictSet, dictGet, h, ih]

theorem dictGet_dictSet_ne {V : Type} {d : List (List Char × V)} {k k' : List Char} (v : V)
    (h : k' ≠ k) : dictGet (dictSet d k v) k' = dictGet d k' := by
  induction d with
  | nil => simp [dictGet, dictSet, Ne.symm h]
  | cons p rest ih =>
    obtain ⟨k₀, v₀⟩ := p
    by_cases h0 : k₀ = k
    · subst h0
      simp [dictSet, dictGet, Ne.symm h]
    · simp only [dictSet, if_neg h0, dictGet]
      by_cases h1 : k₀ = k'
      · simp [h1]
      · simp [h1, ih]

theorem dictGet_eq_none_iff {V : Type} (d : List (List Char × V)) (k : List Char) :
    dictGet d k = none ↔ k ∉ d.map Prod.fst := by
  induction d with
  | nil => simp [dictGet]
  | cons p rest ih =>
    obtain ⟨k', v'⟩ := p
    rw [dictGet]
    by_cases h : k' = k
    · subst h
      rw [if_pos rfl]
      constructor
      · intro hx
        cases hx
      · intro hx
        exact absurd (by rw [List.map_cons]; exact List.mem_cons_self _ _) hx
    · rw [if_neg h, ih]
      constructor
      · intro hx hmem
        rw [List.map_cons, List.mem_cons] at hmem
        rcases hmem with he | hm
        · exact h he.symm
        · exact hx hm
      · intro hx hm
        exact hx (by rw [List.map_cons, List.mem_cons]; exact Or.inr hm)

theorem dictGet_some_mem {V : Type} {d : List (List Char × V)} {k : List Char} {v : V}
    (h : dictGet d k = some v) : k ∈ d.map Prod.fst := by
  by_contra hk
  rw [← dictGet_eq_none_iff] at hk
  rw [h] at hk
  cases hk

theorem dictSet_absent {V : Type} {d : List (List Char × V)} {k : List Char} (v : V)
    (h : dictGet d k = none) : dictSet d k v = d ++ [(k, v)] := by
  induction d with
  | nil => rfl
  | cons p rest ih =>
    obtain ⟨k', v'⟩ := p
    rw [dictGet] at h
    by_cases h0 : k' = k
    · rw [if_pos h0] at h
      cases h
    · rw [if_neg h0] at h
      simp [dictSet, h0, ih h]

theorem dictSet_map_fst {V : Type} {d : List (List Char × V)} {k : List Char} {w : V} (v : V)
    (h : dictGet d k = some w) : (dictSet d k v).map Prod.fst = d.map Prod.fst := by
  induction d with
  | nil => cases h
  | cons p rest ih =>
    obtain ⟨k', v'⟩ := p
    rw [dictGet] at h
    by_cases h0 : k' = k
    · subst h0
      simp [dictSet]
    · rw [if_neg h0] at h
      simp [dictSet, h0, ih h]

theorem dictDel_of_nodup {V : Type} {d : List (List Char × V)} {k : List Char}
    (hnd : (d.map Prod.fst).Nodup) :
    dictDel d k = d.filter (fun p => ¬ p.1 = k) := by
  induction d with
  | nil => rfl
  | cons p rest ih =>
    obtain ⟨k', v'⟩ := p
    simp only [List.map_cons, List.nodup_cons] at hnd
    by_cases h : k' = k
    · subst h
      rw [dictDel, if_pos rfl, List.filter_cons]
      simp only [not_true, decide_False]
      rw [if_neg (by simp)]
      symm
      apply List.filter_eq_self.2
      intro p hp
      simp only [decide_eq_true_eq]
      intro hpk
      exact hnd.1 (by rw [← hpk]; exact List.mem_map_of_mem Prod.fst hp)
    · rw [dictDel, if_neg h, ih hnd.2, List.filter_cons]
      simp [h]

theorem dictGet_dictDel_ne {V : Type} {d : List (List Char × V)} {k k' : List Char}
    (h : k' ≠ k) : dictGet (dictDel d k) k' = dictGet d k' := by
  induction d with
  | nil => rfl
  | cons p rest ih =>
    obtain ⟨k₀, v₀⟩ := p
    by_cases h0 : k₀ = k
    · subst h0
      rw [dictDel, if_pos rfl, dictGet, if_neg (Ne.symm h)]
    · rw [dictDel, if_neg h0, dictGet, dictGet]
      by_cases h1 : k₀ = k'
      · simp [h1]
      · simp [h1, ih]

theorem dictGet_filter_self {V : Type} (d : List (List Char × V)) (k : List Char) :
    dictGet (d.filter (fun p => ¬ p.1 = k)) k = none := by
  induction d with
  | nil => rfl
  | cons p rest ih =>
    obtain ⟨k', v'⟩ := p
    rw [List.filter_cons]
    by_cases h : k' = k
    · simp only [h, not_true, decide_False, if_neg (by simp : ¬false = true)]
      exact ih
    · simp only [h, not_false_iff, decide_True, if_pos rfl]
      simp only [dictGet, if_neg h]
      exact ih

/-! ## Todo server (`mcp-server.py`)

The handlers read and write the module-global `todos` dict; each is embedded
as an explicit state transformer `ServerState → α × ServerState`.  The
process-external sources — `uuid4()` draws and `datetime.utcnow()` readings —
are modelled as streams `uuid`, `now` indexed by a per-state draw counter
`tick` (one draw per `add_todo` call); `uuid4`'s guarantee of fresh unique ids
is the assumption `Function.Injective uuid` where a claim needs it. -/

/-- One stored todo: the value of `todos[todo_id]`
(`{"title": ..., "completed": ..., "created_at": ...}`, in that key order). -/
structure TodoInfo : Type where
  title : List Char
  completed : Bool
  created_at : List Char

/-- The global `todos` dict plus the external-draw counter. -/
structure ServerState : Type where
  todos : List (List Char × TodoInfo)
  tick : Nat

/-- The state at module load: `todos = {}`. -/
def initialState : ServerState := ⟨[], 0⟩

/-- `add_todo(title)` (lines 15–26): draw a fresh id and timestamp, insert
with `completed=False`, report the id. -/
def add_todo (uuid now : Nat → List Char) (title : List Char) (s : ServerState) :
    List Char × ServerState :=
  let todo_id := uuid s.tick
  ("Todo \x27".toList ++ title ++ "\x27 added with ID ".toList ++ todo_id,
    { todos := dictSet s.todos todo_id ⟨title, false, now s.tick⟩, tick := s.tick + 1 })

/-- `complete_todo(todo_id)` (lines 30–41): look up; report not-found or
already-completed, else flip the flag in place. -/
def complete_todo (todo_id : List Char) (s : ServerState) : List Char × ServerState :=
  match dictGet s.todos todo_id with
  | none => ("Todo not found.".toList, s)
  | some todo =>
    if todo.completed then ("Todo already completed.".toList, s)
    else
      ("Todo \x27".toList ++ todo.title ++ "\x27 marked as completed.".toList,
        { s with todos := dictSet s.todos todo_id { todo with completed := true } })

/-- `delete_todo(todo_id)` (lines 45–53): remove the entry if present and
report its title, else report not-found. -/
def delete_todo (todo_id : List Char) (s : ServerState) : List Char × ServerState :=
  match dictGet s.todos todo_id with
  | some todo =>
    ("Todo \x27".toList ++ todo.title ++ "\x27 deleted.".toList,
      { s with todos := dictDel s.todos todo_id })
  | none => ("Todo not found.".toList, s)

/-- The dict `{"id": todo_id, **info}` (`list_todos`, `get_todo`). -/
def todoJson (todo_id : List Char) (t : TodoInfo) : JsonV :=
  .obj [("id".toList, .str todo_id), ("title".toList, .str t.title),
    ("completed".toList, .bool t.completed), ("created_at".toList, .str t.created_at)]

/-- `list_todos()` (lines 57–61): one entry per stored todo, in dict
(insertion) order. -/
def list_todos (s : ServerState) : List JsonV × ServerState :=
  (s.todos.map fun p => todoJson p.1 p.2, s)

/-- `get_todo(todo_id)` (lines 64–71): the stored todo with its id, or a
normal result value wrapping an error indicator. -/
def get_todo (todo_id : List Char) (s : ServerState) : JsonV × ServerState :=
  (match dictGet s.todos todo_id with
   | none => .obj [("error".toList, .str "Todo not found".toList)]
   | some todo => todoJson todo_id todo, s)

/-- `greet(name)` (lines 75–78). -/
def greet (name : List Char) (s : ServerState) : List Char × ServerState :=
  ("Hello, ".toList ++ name ++ "! Welcome to your todo manager.".toList, s)

/-- The operations a connected client can drive the store through. -/
inductive ServerOp : Type
  | addOp (title : List Char)
  | completeOp (todo_id : List Char)
  | deleteOp (todo_id : List Char)
  | listOp
  | getOp (todo_id : List Char)
  | greetOp (name : List Char)

/-- State effect of one operation. -/
def applyOp (uuid now : Nat → List Char) : ServerOp → ServerState → ServerState
  | .addOp t, s => (add_todo uuid now t s).2
  | .completeOp i, s => (complete_todo i s).2
  | .deleteOp i, s => (delete_todo i s).2
  | .listOp, s => (list_todos s).2
  | .getOp i, s => (get_todo i s).2
  | .greetOp n, s => (greet n s).2

/-- Every key in the store came from an earlier `uuid4` draw — true of every
reachable state, and what makes the next draw fresh. -/
def FreshKeys (uuid : Nat → List Char) (s : ServerState) : Prop :=
  ∀ k ∈ s.todos.map Prod.fst, ∃ i < s.tick, uuid i = k

/-- Under injectivity, the next draw collides with no stored key. -/
theorem fresh_draw {uuid : Nat → List Char} (hinj : Function.Injective uuid)
    {s : ServerState} (hf : FreshKeys uuid s) :
    dictGet s.todos (uuid s.tick) = none := by
  rw [dictGet_eq_none_iff]
  intro hmem
  obtain ⟨i, hi, hui⟩ := hf _ hmem
  have := hinj hui
  omega

/-! ## Claims about the client session -/

/-- **C8.** For every well-formed Request or Response message `m`, decoding the
encoding of `m` yields `m` again: serializing `m` to one newline-terminated
record (`json.dumps(message) + "\n"`) and then parsing the terminator-stripped
record (`json.loads(line.strip())`) reconstructs exactly the original message
structure — and the structure determines the message, since `messageJson` is
injective. -/
theorem claim_C8_roundtrip (m : RpcMessage) :
    decodeLine (encodeMessage m) = some (messageJson m) ∧
    ∀ m', messageJson m' = messageJson m → m' = m := by
  refine ⟨decodeLine_encodeLine (messageJson m), ?_⟩
  intro m' h
  cases m <;> cases m' <;> simp [messageJson] at h ⊢
  all_goals try (obtain ⟨h1, h2, h3⟩ := h; exact ⟨h1, h2, h3⟩)
  all_goals (obtain ⟨h1, h2⟩ := h; exact ⟨h1, h2⟩)

/-- Witness for C8 at the `initialize` request with id 1. -/
theorem claim_C8_roundtrip_witness :
    decodeLine (encodeMessage (.request 1 "initialize".toList [])) =
      some (messageJson (.request 1 "initialize".toList [])) ∧
    (RpcMessage.request 1 "initialize".toList []) = .request 1 "initialize".toList [] :=
  ⟨(claim_C8_roundtrip (.request 1 "initialize".toList [])).1,
    (claim_C8_roundtrip (.request 1 "initialize".toList [])).2 _ rfl⟩

/-- **C1 (counterexample).** The claim says a decoded response whose `id`
differs from the request's id makes the call fail with `ProtocolDesync`.  At
request id 1, the concrete response `{"jsonrpc": "2.0", "id": 2, "result":
"late"}` has a mismatched id, yet `send_message` returns its result and no
`ProtocolDesync` failure occurs: the code never inspects the response id. -/
theorem claim_C1_counterexample :
    dictGet [("jsonrpc".toList, JsonV.str "2.0".toList), ("id".toList, JsonV.num 2),
        ("result".toList, JsonV.str "late".toList)] "id".toList = some (JsonV.num 2) ∧
    JsonV.num 2 ≠ JsonV.num 1 ∧
    handleResponse [("jsonrpc".toList, JsonV.str "2.0".toList), ("id".toList, JsonV.num 2),
        ("result".toList, JsonV.str "late".toList)] = .ok (JsonV.str "late".toList) ∧
    handleResponse [("jsonrpc".toList, JsonV.str "2.0".toList), ("id".toList, JsonV.num 2),
        ("result".toList, JsonV.str "late".toList)] ≠ .protocolDesync := by
  refine ⟨rfl, by simp, rfl, by simp [handleResponse, dictGet]⟩

/-- **C1 (amended).** The client session never checks the decoded response's
id against the request's id: no call ever fails with `ProtocolDesync`, and the
call's outcome depends only on the response's `error`/`result` fields — a
response with a mismatched id is processed exactly as a matching one would be
(its result returned, or its error raised). -/
theorem claim_C1_amended :
    (∀ response : List (List Char × JsonV), handleResponse response ≠ .protocolDesync) ∧
    (∀ r1 r2 : List (List Char × JsonV),
      dictGet r1 "error".toList = dictGet r2 "error".toList →
      dictGet r1 "result".toList = dictGet r2 "result".toList →
      handleResponse r1 = handleResponse r2) := by
  constructor
  · intro r
    rw [handleResponse]
    cases dictGet r "error".toList <;> simp
  · intro r1 r2 he hr
    rw [handleResponse, handleResponse, he, hr]

/-- Witness for C1 (amended): two responses differing only in their id field
produce the identical outcome, and neither is a `ProtocolDesync`. -/
theorem claim_C1_amended_witness :
    handleResponse [("id".toList, JsonV.num 1), ("result".toList, JsonV.str "x".toList)] ≠
      .protocolDesync ∧
    handleResponse [("id".toList, JsonV.num 1), ("result".toList, JsonV.str "x".toList)] =
      handleResponse [("id".toList, JsonV.num 2), ("result".toList, JsonV.str "x".toList)] :=
  ⟨claim_C1_amended.1 _, claim_C1_amended.2 _ _ rfl rfl⟩

/-- **C2.** For every client session and every sequence of calls on it, the
request ids attached to the outgoing messages are exactly 1, 2, 3, … in call
order: starting from `message_id = 0`, the `n` successive `_get_next_id`
results are the range `[1, …, n]` — the first id is 1, each id is the previous
plus one, strictly increasing, no gaps, no reuse. -/
theorem claim_C2_ids (n : Nat) : idsFrom initialMessageId n = List.range' 1 n :=
  idsFrom_eq_range' 0 n

/-- **C3.** For every decoded response processed by `send_message`: the call
raises a failure carrying the server-supplied error payload if and only if the
response object contains an `error` field; otherwise the call returns the
response's `result` value.  An error response is never silently swallowed or
returned as a result. -/
theorem claim_C3_error_iff (response : List (List Char × JsonV)) :
    ((∃ e, handleResponse response = .serverError e) ↔
      (dictGet response "error".toList).isSome) ∧
    (∀ e, dictGet response "error".toList = some e →
      handleResponse response = .serverError e) ∧
    (∀ v, dictGet response "error".toList = none →
      dictGet response "result".toList = some v → handleResponse response = .ok v) := by
  refine ⟨⟨?_, ?_⟩, ?_, ?_⟩
  · rintro ⟨e, he⟩
    rw [handleResponse] at he
    cases h : dictGet response "error".toList with
    | none =>
      rw [h] at he
      exact absurd he (by simp)
    | some e' => simp
  · intro h
    obtain ⟨e, he⟩ := Option.isSome_iff_exists.1 h
    exact ⟨e, by rw [handleResponse, he]⟩
  · intro e he
    rw [handleResponse, he]
  · intro v he hv
    rw [handleResponse, he, hv]
    rfl

/-- Witness for C3: an error response raises with the payload; a result
response returns the result. -/
theorem claim_C3_error_iff_witness :
    handleResponse [("error".toList, JsonV.str "boom".toList)] =
      .serverError (.str "boom".toList) ∧
    handleResponse [("result".toList, JsonV.num 7)] = .ok (.num 7) :=
  ⟨(claim_C3_error_iff [("error".toList, JsonV.str "boom".toList)]).2.1 _ rfl,
    (claim_C3_error_iff [("result".toList, JsonV.num 7)]).2.2 _ rfl rfl⟩

/-! ## Claims about the todo store -/

/-- A sequence of `add_todo` calls, in order. -/
def addAll (uuid now : Nat → List Char) (titles : List (List Char)) (s : ServerState) :
    ServerState :=
  titles.foldl (fun st t => (add_todo uuid now t st).2) s

/-- Closed form of a run of adds from a reachable state: fresh draws never
overwrite, so each insert appends, and the run appends one entry per title in
call order. -/
theorem addAll_spec (uuid now : Nat → List Char) (hinj : Function.Injective uuid) :
    ∀ (titles : List (List Char)) (s : ServerState), FreshKeys uuid s →
      (addAll uuid now titles s).todos =
        s.todos ++ (List.enumFrom s.tick titles).map
          (fun p => ((uuid p.1, ⟨p.2, false, now p.1⟩) : List Char × TodoInfo)) ∧
      (addAll uuid now titles s).tick = s.tick + titles.length := by
  intro titles
  induction titles with
  | nil =>
    intro s _
    simp [addAll, List.enumFrom]
  | cons t ts ih =>
    intro s hf
    have hfresh := fresh_draw hinj hf
    have hstep : (add_todo uuid now t s).2 =
        ⟨s.todos ++ [(uuid s.tick, ⟨t, false, now s.tick⟩)], s.tick + 1⟩ := by
      rw [add_todo]
      simp [dictSet_absent _ hfresh]
    have hf' : FreshKeys uuid (add_todo uuid now t s).2 := by
      rw [hstep]
      intro k hk
      simp only [List.map_append, List.mem_append, List.map_cons, List.map_nil,
        List.mem_singleton] at hk
      rcases hk with hk | hk
      · obtain ⟨i, hi, hui⟩ := hf k hk
        exact ⟨i, by show i < s.tick + 1; omega, hui⟩
      · exact ⟨s.tick, by show s.tick < s.tick + 1; omega, hk.symm⟩
    have := ih (add_todo uuid now t s).2 hf'
    rw [addAll, List.foldl_cons] at *
    constructor
    · rw [this.1, hstep]
      simp [List.enumFrom, List.append_assoc]
    · rw [this.2, hstep]
      simp [List.length_cons]
      omega

/-- Field lookup inside a JSON object value, for stating what the entries
`list_todos` returns carry. -/
def jsonField (j : JsonV) (k : List Char) : Option JsonV :=
  match j with
  | .obj fs => dictGet fs k
  | _ => none

theorem jsonField_todoJson_title (i : List Char) (t : TodoInfo) :
    jsonField (todoJson i t) "title".toList = some (.str t.title) := rfl

theorem jsonField_todoJson_completed (i : List Char) (t : TodoInfo) :
    jsonField (todoJson i t) "completed".toList = some (.bool t.completed) := rfl

/-- An injective id stream usable in witnesses. -/
theorem replicate_u_injective : Function.Injective (fun n => List.replicate n 'u') :=
  fun a b h => by simpa using congrArg List.length h

/-- **C4.** For every finite sequence of `add_todo(title)` calls starting from
the empty store, each call succeeds and inserts a todo with `completed=false`;
the ids assigned across the sequence are pairwise distinct; and `list_todos()`
afterward returns exactly one entry per call, whose titles are the supplied
titles in the order the calls were made. -/
theorem claim_C4_adds (uuid now : Nat → List Char) (hinj : Function.Injective uuid)
    (titles : List (List Char)) :
    ((addAll uuid now titles initialState).todos.map Prod.fst).Nodup ∧
    (addAll uuid now titles initialState).todos.map (fun p => p.2.title) = titles ∧
    (∀ p ∈ (addAll uuid now titles initialState).todos, p.2.completed = false) ∧
    (list_todos (addAll uuid now titles initialState)).1.length = titles.length ∧
    (list_todos (addAll uuid now titles initialState)).1.map
        (fun j => jsonField j "title".toList) =
      titles.map (fun t => some (.str t)) := by
  obtain ⟨ht, -⟩ := addAll_spec uuid now hinj titles initialState
    (by intro k hk; simp [initialState] at hk)
  simp only [show initialState.todos = [] from rfl, show initialState.tick = 0 from rfl,
    List.nil_append] at ht
  refine ⟨?_, ?_, ?_, ?_, ?_⟩
  · rw [ht, List.map_map]
    have : (Prod.fst ∘ fun p : Nat × List Char =>
        ((uuid p.1, ⟨p.2, false, now p.1⟩) : List Char × TodoInfo)) =
        uuid ∘ Prod.fst := rfl
    rw [this, ← List.map_map, List.enumFrom_map_fst]
    exact List.Nodup.map hinj (List.nodup_range' _ _)
  · rw [ht, List.map_map]
    have : ((fun p : List Char × TodoInfo => p.2.title) ∘ fun p : Nat × List Char =>
        ((uuid p.1, ⟨p.2, false, now p.1⟩) : List Char × TodoInfo)) = Prod.snd := rfl
    rw [this, List.enumFrom_map_snd]
  · intro p hp
    rw [ht] at hp
    obtain ⟨q, -, rfl⟩ := List.mem_map.1 hp
    rfl
  · simp [list_todos, ht]
  · rw [list_todos, ht]
    simp only [List.map_map]
    have h3 : ((fun j => jsonField j "title".toList) ∘
        (fun p : List Char × TodoInfo => todoJson p.1 p.2) ∘
        (fun p : Nat × List Char =>
          ((uuid p.1, ⟨p.2, false, now p.1⟩) : List Char × TodoInfo))) =
        (fun t => some (JsonV.str t)) ∘ Prod.snd := rfl
    rw [h3, ← List.map_map, List.enumFrom_map_snd]

/-- Witness for C4 with the injective draw stream `n ↦ replicate n 'u'` and
two titles. -/
theorem claim_C4_adds_witness :
    (((addAll (fun n => List.replicate n 'u') (fun _ => []) ["a".toList, "b".toList]
        initialState).todos.map Prod.fst).Nodup) ∧
    ((addAll (fun n => List.replicate n 'u') (fun _ => []) ["a".toList, "b".toList]
        initialState).todos.map (fun p => p.2.title) = ["a".toList, "b".toList]) ∧
    (∀ p ∈ (addAll (fun n => List.replicate n 'u') (fun _ => []) ["a".toList, "b".toList]
        initialState).todos, p.2.completed = false) ∧
    ((list_todos (addAll (fun n => List.replicate n 'u') (fun _ => [])
        ["a".toList, "b".toList] initialState)).1.length = 2) ∧
    ((list_todos (addAll (fun n => List.replicate n 'u') (fun _ => [])
        ["a".toList, "b".toList] initialState)).1.map
        (fun j => jsonField j "title".toList) =
      ["a".toList, "b".toList].map (fun t => some (.str t))) :=
  claim_C4_adds (fun n => List.replicate n 'u') (fun _ => []) replicate_u_injective
    ["a".toList, "b".toList]

/-- **C5.** For every id present with `completed=false`, `complete_todo(id)`
sets that todo's `completed` flag to true and reports success, leaving title,
`created_at`, every other entry and the entry order unchanged; a second
`complete_todo(id)` reports the already-completed outcome and leaves the whole
state unchanged; `complete_todo` on an absent id reports not-found and leaves
the state unchanged; and under the reachable-state invariants the `completed`
flag never transitions from true back to false under any operation. -/
theorem claim_C5_complete (uuid now : Nat → List Char) (s : ServerState)
    (todo_id : List Char) :
    (∀ t, dictGet s.todos todo_id = some t → t.completed = false →
      (complete_todo todo_id s).1 =
        "Todo \x27".toList ++ t.title ++ "\x27 marked as completed.".toList ∧
      dictGet (complete_todo todo_id s).2.todos todo_id =
        some ⟨t.title, true, t.created_at⟩ ∧
      (∀ k, k ≠ todo_id →
        dictGet (complete_todo todo_id s).2.todos k = dictGet s.todos k) ∧
      (complete_todo todo_id s).2.todos.map Prod.fst = s.todos.map Prod.fst ∧
      (complete_todo todo_id s).2.tick = s.tick) ∧
    (∀ t, dictGet s.todos todo_id = some t → t.completed = true →
      (complete_todo todo_id s).1 = "Todo already completed.".toList ∧
      (complete_todo todo_id s).2 = s) ∧
    (dictGet s.todos todo_id = none →
      (complete_todo todo_id s).1 = "Todo not found.".toList ∧
      (complete_todo todo_id s).2 = s) ∧
    (∀ (op : ServerOp) (t t' : TodoInfo),
      Function.Injective uuid → FreshKeys uuid s → (s.todos.map Prod.fst).Nodup →
      dictGet s.todos todo_id = some t → t.completed = true →
      dictGet (applyOp uuid now op s).todos todo_id = some t' → t'.completed = true) := by
  refine ⟨?_, ?_, ?_, ?_⟩
  · intro t ht hf
    simp only [complete_todo, ht, hf, Bool.false_eq_true, if_false]
    refine ⟨trivial, ?_, ?_, ?_, trivial⟩
    · exact dictGet_dictSet_self s.todos todo_id _
    · intro k hk
      exact dictGet_dictSet_ne _ hk
    · exact dictSet_map_fst _ ht
  · intro t ht hc
    simp only [complete_todo, ht, hc, if_true]
    exact ⟨trivial, trivial⟩
  · intro h
    simp only [complete_todo, h]
    exact ⟨trivial, trivial⟩
  · intro op t t' hinj hfk hnd ht hc hafter
    cases op with
    | addOp title =>
      simp only [applyOp, add_todo] at hafter
      have hne : uuid s.tick ≠ todo_id := by
        intro he
        have hnone := fresh_draw hinj hfk
        rw [he, ht] at hnone
        cases hnone
      rw [dictGet_dictSet_ne _ (Ne.symm hne), ht] at hafter
      obtain rfl : t = t' := by simpa using hafter
      exact hc
    | completeOp j =>
      simp only [applyOp, complete_todo] at hafter
      cases hj : dictGet s.todos j with
      | none =>
        simp only [hj, ht] at hafter
        obtain rfl : t = t' := by simpa using hafter
        exact hc
      | some u =>
        simp only [hj] at hafter
        by_cases hu : u.completed
        · simp only [hu, if_true, ht] at hafter
          obtain rfl : t = t' := by simpa using hafter
          exact hc
        · rw [if_neg hu] at hafter
          by_cases hji : j = todo_id
          · subst hji
            rw [ht] at hj
            obtain rfl : t = u := by simpa using hj
            exact absurd hc hu
          · simp only at hafter
            rw [dictGet_dictSet_ne _ (Ne.symm hji), ht] at hafter
            obtain rfl : t = t' := by simpa using hafter
            exact hc
    | deleteOp j =>
      simp only [applyOp, delete_todo] at hafter
      cases hj : dictGet s.todos j with
      | none =>
        simp only [hj, ht] at hafter
        obtain rfl : t = t' := by simpa using hafter
        exact hc
      | some u =>
        simp only [hj] at hafter
        by_cases hji : j = todo_id
        · subst hji
          rw [dictDel_of_nodup hnd, dictGet_filter_self] at hafter
          cases hafter
        · rw [dictGet_dictDel_ne (Ne.symm hji), ht] at hafter
          obtain rfl : t = t' := by simpa using hafter
          exact hc
    | listOp =>
      simp only [applyOp, list_todos, ht] at hafter
      obtain rfl : t = t' := by simpa using hafter
      exact hc
    | getOp j =>
      simp only [applyOp, get_todo, ht] at hafter
      obtain rfl : t = t' := by simpa using hafter
      exact hc
    | greetOp n =>
      simp only [applyOp, greet, ht] at hafter
      obtain rfl : t = t' := by simpa using hafter
      exact hc

/-- Witness for C5 over a concrete reachable store: completing a pending todo
reports success and flips the flag; re-completing reports already-completed
and leaves the state alone; an unknown id reports not-found; and an `add`
after completion leaves the completed flag true. -/
theorem claim_C5_complete_witness :
    ((complete_todo [] ⟨[([], ⟨"t".toList, false, "d".toList⟩)], 1⟩).1 =
      "Todo \x27".toList ++ "t".toList ++ "\x27 marked as completed.".toList ∧
     dictGet (complete_todo [] ⟨[([], ⟨"t".toList, false, "d".toList⟩)], 1⟩).2.todos [] =
      some ⟨"t".toList, true, "d".toList⟩) ∧
    ((complete_todo [] ⟨[([], ⟨"t".toList, true, "d".toList⟩)], 1⟩).1 =
      "Todo already completed.".toList ∧
     (complete_todo [] ⟨[([], ⟨"t".toList, true, "d".toList⟩)], 1⟩).2 =
      ⟨[([], ⟨"t".toList, true, "d".toList⟩)], 1⟩) ∧
    ((complete_todo "z".toList ⟨[([], ⟨"t".toList, false, "d".toList⟩)], 1⟩).1 =
      "Todo not found.".toList) ∧
    (∀ t', dictGet (applyOp (fun n => List.replicate n 'u') (fun _ => [])
        (.addOp "u2".toList) ⟨[([], ⟨"t".toList, true, "d".toList⟩)], 1⟩).todos [] =
        some t' → t'.completed = true) := by
  have base := claim_C5_complete (fun n => List.replicate n 'u') (fun _ => [])
    ⟨[([], ⟨"t".toList, false, "d".toList⟩)], 1⟩ []
  have base2 := claim_C5_complete (fun n => List.replicate n 'u') (fun _ => [])
    ⟨[([], ⟨"t".toList, true, "d".toList⟩)], 1⟩ []
  have base3 := claim_C5_complete (fun n => List.replicate n 'u') (fun _ => [])
    ⟨[([], ⟨"t".toList, false, "d".toList⟩)], 1⟩ "z".toList
  refine ⟨⟨((base.1 _ rfl rfl)).1, ((base.1 _ rfl rfl)).2.1⟩,
    ⟨(base2.2.1 _ rfl rfl).1, (base2.2.1 _ rfl rfl).2⟩,
    (base3.2.2.1 rfl).1, ?_⟩
  intro t' h
  exact base2.2.2.2 (.addOp "u2".toList) ⟨"t".toList, true, "d".toList⟩ t'
    replicate_u_injective
    (by
      intro k hk
      simp at hk
      exact ⟨0, by show (0 : Nat) < 1; omega, by rw [hk]; rfl⟩)
    (by simp)
    rfl rfl h

/-- **C6.** For every id present in the store, `delete_todo(id)` removes
exactly that entry and reports deletion with its title; afterwards
`get_todo(id)` yields the not-found payload and the store no longer contains
that id, while the remaining entries keep their previous relative order (the
store becomes the order-preserving filter dropping that id).  `delete_todo` on
an absent id reports not-found without raising and leaves the state
unchanged. -/
theorem claim_C6_delete (s : ServerState) (todo_id : List Char) :
    (∀ t, (s.todos.map Prod.fst).Nodup → dictGet s.todos todo_id = some t →
      (delete_todo todo_id s).1 =
        "Todo \x27".toList ++ t.title ++ "\x27 deleted.".toList ∧
      (delete_todo todo_id s).2.todos = s.todos.filter (fun p => ¬ p.1 = todo_id) ∧
      dictGet (delete_todo todo_id s).2.todos todo_id = none ∧
      (get_todo todo_id (delete_todo todo_id s).2).1 =
        .obj [("error".toList, .str "Todo not found".toList)] ∧
      todo_id ∉ (delete_todo todo_id s).2.todos.map Prod.fst) ∧
    (dictGet s.todos todo_id = none →
      (delete_todo todo_id s).1 = "Todo not found.".toList ∧
      (delete_todo todo_id s).2 = s) := by
  constructor
  · intro t hnd ht
    have hdel : (delete_todo todo_id s).2.todos =
        s.todos.filter (fun p => ¬ p.1 = todo_id) := by
      simp only [delete_todo, ht]
      exact dictDel_of_nodup hnd
    have hnone : dictGet (delete_todo todo_id s).2.todos todo_id = none := by
      rw [hdel]
      exact dictGet_filter_self s.todos todo_id
    refine ⟨by simp only [delete_todo, ht], hdel, hnone, ?_, ?_⟩
    · simp only [get_todo, hnone]
    · rw [← dictGet_eq_none_iff]
      exact hnone
  · intro h
    simp only [delete_todo, h]
    exact ⟨trivial, trivial⟩

/-- Witness for C6: deleting the only todo reports its title, empties the
store, and a later lookup reports not-found; deleting an unknown id leaves the
state unchanged. -/
theorem claim_C6_delete_witness :
    ((delete_todo "a".toList ⟨[("a".toList, ⟨"t".toList, false, "d".toList⟩)], 1⟩).1 =
      "Todo \x27".toList ++ "t".toList ++ "\x27 deleted.".toList ∧
     (get_todo "a".toList
        (delete_todo "a".toList
          ⟨[("a".toList, ⟨"t".toList, false, "d".toList⟩)], 1⟩).2).1 =
      .obj [("error".toList, .str "Todo not found".toList)]) ∧
    ((delete_todo "b".toList ⟨[("a".toList, ⟨"t".toList, false, "d".toList⟩)], 1⟩).2 =
      ⟨[("a".toList, ⟨"t".toList, false, "d".toList⟩)], 1⟩) := by
  have base := claim_C6_delete ⟨[("a".toList, ⟨"t".toList, false, "d".toList⟩)], 1⟩ "a".toList
  have base2 := claim_C6_delete ⟨[("a".toList, ⟨"t".toList, false, "d".toList⟩)], 1⟩ "b".toList
  exact ⟨⟨(base.1 _ (by simp) rfl).1, (base.1 _ (by simp) rfl).2.2.2.1⟩,
    (base2.2 rfl).2⟩

/-- **C7.** For every id not present in the store, `get_todo(id)` returns a
normal successful result value wrapping an error indicator (the payload
`{"error": "Todo not found"}`), not a protocol-level error — the handler is a
total function returning a value; for every id present it returns the stored
todo together with its id. -/
theorem claim_C7_get (s : ServerState) (todo_id : List Char) :
    (dictGet s.todos todo_id = none →
      (get_todo todo_id s).1 = .obj [("error".toList, .str "Todo not found".toList)]) ∧
    (∀ t, dictGet s.todos todo_id = some t →
      (get_todo todo_id s).1 = todoJson todo_id t) := by
  constructor
  · intro h
    simp only [get_todo, h]
  · intro t ht
    simp only [get_todo, ht]

/-- Witness for C7: an empty store reports the not-found payload; a store
holding the id returns the todo with its id. -/
theorem claim_C7_get_witness :
    (get_todo "x".toList initialState).1 =
      .obj [("error".toList, .str "Todo not found".toList)] ∧
    (get_todo "a".toList ⟨[("a".toList, ⟨"t".toList, false, "d".toList⟩)], 5⟩).1 =
      todoJson "a".toList ⟨"t".toList, false, "d".toList⟩ :=
  ⟨(claim_C7_get initialState "x".toList).1 rfl,
    (claim_C7_get ⟨[("a".toList, ⟨"t".toList, false, "d".toList⟩)], 5⟩ "a".toList).2 _ rfl⟩

/-- **C10.** The resource handlers `list_todos`, `get_todo` and `greet` are
read-only: for every store state and every argument, invoking any of them
leaves the todos mapping (indeed the whole server state) exactly unchanged. -/
theorem claim_C10_readonly (s : ServerState) (todo_id name : List Char) :
    (list_todos s).2 = s ∧ (get_todo todo_id s).2 = s ∧ (greet name s).2 = s :=
  ⟨rfl, rfl, rfl⟩

/-! ## `basic-mcp/server.py`: the `debug_error` prompt

The Python source builds each "message" as a set literal (`{"user", error}`),
not a dict: the elements are unordered sets of strings, modelled as `Finset
(List Char)`, so no role-to-content pairing exists. -/

/-- `debug_error(error)` (lines 34–39): the list of three set literals. -/
def debug_error (error : List Char) : List (Finset (List Char)) :=
  [insert "user".toList {"I\x27m seeing this error".toList},
   insert "user".toList {error},
   insert "assistant".toList
     {"I\x27ll help debug that, what have you tried so far?".toList}]

/-- **C9.** For every input string, the `debug_error` prompt returns a
three-element list whose elements are unordered sets of strings rather than
role-to-content mappings, so the pairing between a role and its content is not
preserved; in particular for the input `"user"` the second element collapses
to the single-element set `{"user"}`, where role and content can no longer be
told apart. -/
theorem claim_C9_debug_error :
    (∀ e, (debug_error e).length = 3) ∧
    (debug_error "user".toList)[1]? = some {"user".toList} ∧
    ((debug_error "user".toList)[1]?.map Finset.card) = some 1 := by
  have h1 : (debug_error "user".toList)[1]? = some {"user".toList} := by
    show some (insert "user".toList {"user".toList}) = some {"user".toList}
    rw [Finset.insert_eq_self.2 (Finset.mem_singleton_self _)]
  exact ⟨fun e => rfl, h1, by rw [h1, Option.map_some', Finset.card_singleton]⟩

end Mcp
